import Mathlib

/-!
Shallow embedding of the generative core of the Syberia Music AI Remix
repository: the Markov chain (markov-chain.js), the L-system (l-system.js)
and the cellular automaton (cellular-automata.js).  JavaScript numbers that
hold MIDI pitches are modelled as `Int`, probabilities as `ℚ`, JS `undefined`
as `Option.none` where it can flow into a generated sequence, and the
string-keyed `Map` of the Markov chain as an insertion-ordered association
list whose keys are the integer arrays that were stringified (two keys are
equal iff the arrays are element-wise equal, which matches string equality of
their JSON encodings).
-/

namespace Syberia

/-- JS `Math.round`: round half towards positive infinity. -/
def jsRound (q : ℚ) : Int := ⌊q + 1/2⌋

/-! ## Markov chain (markov-chain.js) -/

/-- State of a `MarkovChain` instance: the `order`, the `Map` from stringified
context windows to the multiset (list) of observed successors, and the pool of
starting states. -/
structure MarkovChain where
  order : Nat
  transitionTable : List (List Int × List Int)
  startingStates : List (List Int)
deriving Repr, DecidableEq

/-- The `new MarkovChain(order)`. -/
def markovNew (order : Nat) : MarkovChain := ⟨order, [], []⟩

/-- The `Map.get`-style lookup on the association-list model of the table. -/
def lookupTable : List (List Int × List Int) → List Int → Option (List Int)
  | [], _ => none
  | (k, vs) :: rest, key => if k = key then some vs else lookupTable rest key

/-- The `if (!table.has(k)) table.set(k, []); table.get(k).push(v)`:
append `v` to the multiset of `k`, creating the entry at the end if absent. -/
def tableAdd : List (List Int × List Int) → List Int → Int → List (List Int × List Int)
  | [], key, v => [(key, [v])]
  | (k, vs) :: rest, key, v =>
    if k = key then (k, vs ++ [v]) :: rest else (k, vs) :: tableAdd rest key v

/-- The `MarkovChain.train(sequence)`: a soft no-op for sequences of length at most
`order`; otherwise records one starting state and every context-window
transition. -/
def train (mc : MarkovChain) (seq : List Int) : MarkovChain :=
  if seq.length ≤ mc.order then mc
  else
    { mc with
      startingStates := mc.startingStates ++ [seq.take mc.order],
      transitionTable :=
        (List.range (seq.length - mc.order)).foldl
          (fun tbl i => tableAdd tbl ((seq.drop i).take mc.order) (seq.getD (i + mc.order) 0))
          mc.transitionTable }

/-- The `train` emits its `console.warn` exactly when the sequence is too short. -/
def trainWarns (mc : MarkovChain) (seq : List Int) : Bool := seq.length ≤ mc.order

/-- One element of a generated sequence: a JS value that is either a number or
`undefined` (`none`). -/
abbrev JsVal := Option Int

/-- The `table.has(state)` / `table.get(state)` where `state` is the JSON string of
the current window of generated values: it equals a stored key (the JSON string
of an integer array) iff the window is element-wise `some` of that array. -/
def findSucc : List (List Int × List Int) → List JsVal → Option (List Int)
  | [], _ => none
  | (k, vs) :: rest, st => if st = k.map some then some vs else findSucc rest st

/-- One iteration of the `while` body of `MarkovChain.generate`: `some` of the
grown sequence, or `none` when the loop `break`s.  `rng k` stands for the
`k`-th `Math.random()` draw, reduced modulo the relevant size.  For an empty
successor multiset `Math.floor(Math.random() * 0)` is the index 0 and the array
read yields `undefined`, modelled by `List.get?`. -/
def genStep (mc : MarkovChain) (rng : Nat → Nat) (k : Nat) (seq : List JsVal) :
    Option (List JsVal) :=
  let state := seq.drop (seq.length - mc.order)
  match findSucc mc.transitionTable state with
  | some vs =>
    let idx := if vs.length = 0 then 0 else rng k % vs.length
    some (seq ++ [vs.get? idx])
  | none =>
    if mc.startingStates.length ≠ 0 then
      let st := (mc.startingStates.get? (rng k % mc.startingStates.length)).getD []
      some (seq ++ [st.get? 0])
    else none

/-- The generation `while` loop.  Each iteration appends exactly one value or
`break`s, so the `while (sequence.length < length)` loop performs at most `len`
iterations: fuel `len` makes the recursion structural without changing the
computed result. -/
def genLoop (mc : MarkovChain) (rng : Nat → Nat) (len : Nat) :
    Nat → Nat → List JsVal → List JsVal
  | 0, _, seq => seq
  | fuel + 1, k, seq =>
    if seq.length < len then
      match genStep mc rng k seq with
      | some s => genLoop mc rng len fuel (k + 1) s
      | none => seq
    else seq

/-- The `else if (this.startingStates.length > 0)` branch of `generate`'s
seed selection: a uniformly random starting state, or `none` when the pool is
empty (the `return []` error branch). -/
def poolPick (mc : MarkovChain) (rng : Nat → Nat) : Option (List Int) :=
  if mc.startingStates.length ≠ 0 then
    mc.startingStates.get? (rng 0 % mc.startingStates.length)
  else none

/-- The seed-selection `if / else if / else` chain of `generate`: the supplied
start state when its length equals the order, otherwise a random pool pick. -/
def chooseSeed (mc : MarkovChain) (rng : Nat → Nat) :
    Option (List Int) → Option (List Int)
  | some sc => if sc.length = mc.order then some sc else poolPick mc rng
  | none => poolPick mc rng

/-- The `MarkovChain.generate(length, startState)` with the stream of
`Math.random()` draws made explicit. -/
def generate (mc : MarkovChain) (len : Nat) (startState : Option (List Int))
    (rng : Nat → Nat) : List JsVal :=
  if mc.transitionTable.length = 0 then []
  else
    match chooseSeed mc rng startState with
    | some s => genLoop mc rng len len 1 (s.map some)
    | none => []

/-- The state set of `getProbabilityMatrix`: every parsed from-key
(`JSON.parse(state)[0]`) and every successor, deduplicated (JS `Set`), then
sorted ascending. -/
def collectStates (tbl : List (List Int × List Int)) : List Int :=
  (tbl.flatMap (fun e => e.1.headI :: e.2)).dedup

/-- The sorted state list returned by `getProbabilityMatrix` (the JS
`.sort((a, b) => a - b)`; the sorting algorithm itself is irrelevant, only the
sorted result matters). -/
def matrixStates (tbl : List (List Int × List Int)) : List Int :=
  (collectStates tbl).insertionSort (· ≤ ·)

/-- The transition-count matrix of `getProbabilityMatrix` before
normalization. -/
def countEntry (tbl : List (List Int × List Int)) (f t : Int) : Nat :=
  (tbl.map (fun e => if e.1.headI = f then e.2.count t else 0)).sum

/-- The row total `Object.values(matrix[fromState]).reduce((s, c) => s + c, 0)`. -/
def rowTotal (tbl : List (List Int × List Int)) (f : Int) : Nat :=
  ((matrixStates tbl).map (fun t => countEntry tbl f t)).sum

/-- One entry of the normalized probability matrix: rows with a positive total
are divided by it, rows with total zero are left as the (all-zero) counts. -/
def probEntry (tbl : List (List Int × List Int)) (f t : Int) : ℚ :=
  if 0 < rowTotal tbl f then (countEntry tbl f t : ℚ) / (rowTotal tbl f : ℚ)
  else (countEntry tbl f t : ℚ)

/-- The `MarkovChain.getProbabilityMatrix()`: `none` (JS `null`) unless the order
is 1, otherwise the sorted state list together with the matrix. -/
def getProbabilityMatrix (mc : MarkovChain) : Option (List Int × (Int → Int → ℚ)) :=
  if mc.order ≠ 1 then none
  else some (matrixStates mc.transitionTable, probEntry mc.transitionTable)

/-- The from-state `f` has at least one observed outgoing transition. -/
def hasOutgoing (tbl : List (List Int × List Int)) (f : Int) : Prop :=
  ∃ e ∈ tbl, e.1.headI = f ∧ e.2 ≠ []

instance (tbl : List (List Int × List Int)) (f : Int) :
    Decidable (hasOutgoing tbl f) := by
  unfold hasOutgoing; infer_instance

/-- The `Math.round(probability * 100)` of `updateProbabilities` (the probability
is positive there, so `toNat` loses nothing). -/
def roundCount (p : ℚ) : Nat := (⌊p * 100 + 1/2⌋).toNat

/-- The `if (!table.has(key)) table.set(key, [])`. -/
def tableEnsure (tbl : List (List Int × List Int)) (key : List Int) :
    List (List Int × List Int) :=
  match lookupTable tbl key with
  | some _ => tbl
  | none => tbl ++ [(key, [])]

/-- The `table.get(key).push(v)` for a key that is present (`updateProbabilities`
ensures the key before pushing; on an absent key JS would throw, and the
branch is unreachable). -/
def tablePush : List (List Int × List Int) → List Int → Int → List (List Int × List Int)
  | [], _, _ => []
  | (k, vs) :: rest, key, v =>
    if k = key then (k, vs ++ [v]) :: rest else (k, vs) :: tablePush rest key v

/-- The `for (let i = 0; i < count; i++) table.get(key).push(v)`. -/
def pushCopies (key : List Int) (v : Int) :
    Nat → List (List Int × List Int) → List (List Int × List Int)
  | 0, tbl => tbl
  | n + 1, tbl => pushCopies key v n (tablePush tbl key v)

/-- The inner `for (const [toState, probability] of ...)` loop of
`updateProbabilities` for one declared from-state. -/
def updateEntryList (key : List Int) :
    List (Int × ℚ) → List (List Int × List Int) → List (List Int × List Int)
  | [], tbl => tbl
  | (t, p) :: rest, tbl =>
    if p ≤ 0 then updateEntryList key rest tbl
    else updateEntryList key rest (pushCopies key t (roundCount p) (tableEnsure tbl key))

/-- The outer `for (const [fromState, transitions] of ...)` loop of
`updateProbabilities`, starting from the cleared table. -/
def rebuildTable : List (Int × List (Int × ℚ)) → List (List Int × List Int) →
    List (List Int × List Int)
  | [], tbl => tbl
  | (f, ts) :: rest, tbl => rebuildTable rest (updateEntryList [f] ts tbl)

/-- The `MarkovChain.updateProbabilities(newProbabilities)`: a no-op unless the
order is 1, otherwise the table is cleared and rebuilt from the declared
probabilities. -/
def updateProbabilities (mc : MarkovChain) (newProbs : List (Int × List (Int × ℚ))) :
    MarkovChain :=
  if mc.order ≠ 1 then mc
  else { mc with transitionTable := rebuildTable newProbs [] }

/-- The successor multiset `updateProbabilities` builds for one from-state, as
a flat description used in the theorems: `round(p*100)` copies of each to-state
with positive probability, in declaration order. -/
def posFlat (ts : List (Int × ℚ)) : List Int :=
  ts.flatMap (fun tp => if tp.2 ≤ 0 then [] else List.replicate (roundCount tp.2) tp.1)

/-! ## L-system (l-system.js) -/

/-- Production rules: `rules[c]` in JS, `none` when no rule exists for `c`. -/
abbrev LRules := Char → Option (List Char)

/-- Body of the `for (const symbol of current)` loop of `LSystem.generate`:
`if (this.rules[symbol]) next += this.rules[symbol]; else next += symbol;`.
A rule whose replacement is the empty string is falsy in JS, so the symbol is
kept in that case. -/
def rewriteStep (rules : LRules) : List Char → List Char
  | [] => []
  | c :: cs =>
    (match rules c with
      | some r => if r.isEmpty then [c] else r
      | none => [c]) ++ rewriteStep rules cs

/-- The `LSystem.generate(iterations)`: apply `rewriteStep` `iterations` times
starting from the current string (the axiom string at the call site). -/
def lsysGenerate (rules : LRules) : Nat → List Char → List Char
  | 0, cur => cur
  | n + 1, cur => lsysGenerate rules n (rewriteStep rules cur)

/-- The single-step rewrite map exactly as the specification words it: replace
each symbol by its rule's replacement whenever a rule exists, keep the symbol
otherwise.  (Compared against `rewriteStep`, which is translated from the
source.) -/
def specRewriteStep (rules : LRules) : List Char → List Char
  | [] => []
  | c :: cs =>
    (match rules c with
      | some r => r
      | none => [c]) ++ specRewriteStep rules cs

/-- The amended single-step map: a rule with an empty replacement behaves like
a missing rule, matching the falsy test in the source. -/
def amendedRewriteStep (rules : LRules) (s : List Char) : List Char :=
  s.flatMap (fun c =>
    match rules c with
    | some r => if r = [] then [c] else r
    | none => [c])

/-- A rule set mapping `A` to the empty replacement (producible by
`parseRules("A->")`). -/
def emptyRuleA : LRules := fun c => if c = 'A' then some [] else none

/-- The Fibonacci-like grammar of the end-to-end scenario:
`{A: "AB", B: "A"}`. -/
def fibRules : LRules := fun c =>
  if c = 'A' then some ['A', 'B'] else if c = 'B' then some ['A'] else none

/-- The default per-symbol transformations of `applyToMusic`. -/
def defaultTransform : Char → Option (Int → Int) := fun c =>
  if c = 'A' then some (fun note => min (note + 1) 127)
  else if c = 'B' then some (fun note => max (note - 1) 0)
  else if c = 'C' then some (fun note => 120 - note)
  else if c = 'D' then some (fun note => note)
  else if c = 'E' then some (fun note => note)
  else if c = 'F' then some (fun note => note)
  else none

/-- The segment loop of `applyToMusic` for derivation symbols from index `i`
upward: window `[i*seg, min((i+1)*seg, |seq|))` of `seq`, transformed
element-wise when the symbol has a transform, and a `break` once the window
start reaches the end of `seq`. -/
def segApply (transforms : Char → Option (Int → Int)) (seq : List Int) (seg : Nat) :
    List Char → Nat → List Int
  | [], _ => []
  | c :: cs, i =>
    if seq.length ≤ i * seg then []
    else
      let endIdx := min ((i + 1) * seg) seq.length
      let segment := (seq.drop (i * seg)).take (endIdx - i * seg)
      (match transforms c with
        | some f => segment.map f
        | none => segment) ++ segApply transforms seq seg cs (i + 1)

/-- The `LSystem.applyToMusic(sequence, transformations)`; `deriv` is
`this.result`, and `transformations.getD defaultTransform` models
`transformations || defaultTransform`.  The segment size is
`Math.ceil(sequence.length / derivation.length)`. -/
def applyToMusic (deriv : List Char) (seq : List Int)
    (transformations : Option (Char → Option (Int → Int))) : List Int :=
  if deriv.length = 0 then seq
  else
    let transforms := transformations.getD defaultTransform
    segApply transforms seq ((seq.length + deriv.length - 1) / deriv.length) deriv 0

/-! ## Cellular automaton (cellular-automata.js) -/

/-- The `generateRuleTable(rule)`: the key `i.toString(2).padStart(3, '0')` is the
three binary digits of `i` read left-to-right (left, center, right), and the
value is bit `i` of the rule number (`(rule & (1 << i)) ? 1 : 0`). -/
def generateRuleTable (rule : Nat) : List ((Nat × Nat × Nat) × Nat) :=
  (List.range 8).map (fun i =>
    ((i / 4 % 2, i / 2 % 2, i % 2), if rule &&& (1 <<< i) ≠ 0 then 1 else 0))

/-- The `getNextCellState(left, center, right)`: look the neighborhood up in the
rule table.  The default 0 models the JS `undefined` of a missing key, which
cannot occur for binary cells. -/
def getNextCellState (rule l c r : Nat) : Nat :=
  ((generateRuleTable rule).lookup (l, c, r)).getD 0

/-- State of a `CellularAutomata` instance. -/
structure CellularAutomata where
  rule : Nat
  size : Nat
  currentState : List Nat
  history : List (List Nat)
deriving Repr, DecidableEq

/-- The `CellularAutomata` constructor: the supplied initial state when its
length matches `size`, otherwise a single live cell at `floor(size / 2)`;
the history starts with this row. -/
def caInit (rule size : Nat) (initialState : Option (List Nat)) : CellularAutomata :=
  let middle := (List.range size).map (fun i => if i = size / 2 then 1 else 0)
  let cur := match initialState with
    | some s => if s.length = size then s else middle
    | none => middle
  { rule := rule, size := size, currentState := cur, history := [cur] }

/-- The next row computed by `evolve()`: every cell's 3-neighborhood is looked
up in the previous row with periodic boundary; `(i - 1 + size) % size` is
written `(i + size - 1) % size`, identical over the integers for `i ≥ 0`. -/
def evolveRow (rule size : Nat) (cur : List Nat) : List Nat :=
  (List.range size).map (fun i =>
    getNextCellState rule
      (cur.getD ((i + size - 1) % size) 0)
      (cur.getD i 0)
      (cur.getD ((i + 1) % size) 0))

/-- The `evolve()` as a state transition: the new instance state plus the returned
row. -/
def evolveCA (ca : CellularAutomata) : CellularAutomata × List Nat :=
  let next := evolveRow ca.rule ca.size ca.currentState
  ({ ca with currentState := next, history := ca.history ++ [next] }, next)

/-- The `evolveMultiple(steps)`: the state after the loop plus the rows returned,
in order. -/
def evolveMultiple (ca : CellularAutomata) : Nat → CellularAutomata × List (List Nat)
  | 0 => (ca, [])
  | steps + 1 =>
    let first := evolveCA ca
    let rest := evolveMultiple first.1 steps
    (rest.1, first.2 :: rest.2)

/-- The `toRhythm(row)`: the chosen history row; `-1` selects the last row; any
other out-of-range index logs `Invalid row index` and yields `[]`. -/
def caToRhythm (ca : CellularAutomata) (row : Int) : List Nat :=
  let rowIndex : Int := if row = -1 then (ca.history.length : Int) - 1 else row
  if rowIndex < 0 ∨ (ca.history.length : Int) ≤ rowIndex then []
  else ca.history.getD rowIndex.toNat []

/-- The rhythm-tiling loop of `applyToSequence` / `applyToPitches`:
`while (full.length < target) full.push(...pat)`.  The fuel makes the possibly
diverging loop a total function: a run that diverges yields `none` for every
fuel value. -/
def tileLoop (pat : List Nat) (target : Nat) : Nat → List Nat → Option (List Nat)
  | 0, acc => if target ≤ acc.length then some acc else none
  | fuel + 1, acc =>
    if target ≤ acc.length then some acc
    else tileLoop pat target fuel (acc ++ pat)

/-- The `applyToSequence(notes, durations, row)`, fuelled because of the tiling
loop: keep exactly the note/duration pairs at positions where the tiled rhythm
is 1. -/
def caApplyToSequence (ca : CellularAutomata) (notes durations : List Int)
    (row : Int) (fuel : Nat) : Option (List Int × List Int) :=
  let caRhythm := caToRhythm ca row
  match tileLoop caRhythm notes.length fuel [] with
  | none => none
  | some fullRhythm =>
    let rhythm := fullRhythm.take notes.length
    let keep := (List.range notes.length).filter (fun i => rhythm.getD i 0 = 1)
    some (keep.map (fun i => notes.getD i 0), keep.map (fun i => durations.getD i 0))

/-- The `mapValue(value, inMin, inMax, outMin, outMax)`. -/
def mapValue (value inMin inMax outMin outMax : ℚ) : ℚ :=
  outMin + (outMax - outMin) * (value - inMin) / (inMax - inMin)

/-- The `applyToPitches(notes, row, range)`, fuelled because of the tiling loop.
`Int.tmod` keeps the sign of the dividend exactly like JS `%`; a negative
index (reachable only for `notes.length = 2`) reads `undefined` in JS and is
modelled by the default cell 0. -/
def caApplyToPitches (ca : CellularAutomata) (notes : List Int) (row : Int)
    (range : Int) (fuel : Nat) : Option (List Int) :=
  let caPattern := caToRhythm ca row
  match tileLoop caPattern notes.length fuel [] with
  | none => none
  | some fullPattern =>
    let pat := fullPattern.take notes.length
    some ((List.range notes.length).map (fun (i : Nat) =>
      let count : Nat :=
        ((List.range 7).map (fun j =>
          pat.getD ((((i : Int) + (j : Int) - 3 + (pat.length : Int)).tmod
            (pat.length : Int)).toNat) 0)).sum
      let transposition := mapValue (count : ℚ) 0 7 (-(range : ℚ)) (range : ℚ)
      max 0 (min 127 (jsRound ((notes.getD i 0 : ℚ) + transposition)))))

/-- The `while (this.history.length < length) this.evolve()` loop of
`generatePitches`; each `evolve` appends exactly one row, so fuel `target`
always suffices. -/
def evolveWhile (target : Nat) : Nat → CellularAutomata → CellularAutomata
  | 0, ca => ca
  | fuel + 1, ca =>
    if ca.history.length < target then evolveWhile target fuel (evolveCA ca).1
    else ca

/-- The `generatePitches(length, minPitch, maxPitch)`: evolve until the history is
long enough, then map each history row's live-cell density into the pitch
range. -/
def caGeneratePitches (ca : CellularAutomata) (len : Nat) (minPitch maxPitch : Int) :
    CellularAutomata × List Int :=
  let ca2 := evolveWhile len len ca
  (ca2, (List.range len).map (fun i =>
    let state := ca2.history.getD (i % ca2.history.length) []
    let activeCount : Nat := state.sum
    ⌊(minPitch : ℚ) + ((activeCount : ℚ) / (ca2.size : ℚ)) *
      ((maxPitch : ℚ) - (minPitch : ℚ))⌋))

/-! ## Concrete scenario instances used by the witnesses -/

/-- The order-1 end-to-end scenario chain of the specification, trained on
`[60, 62, 64, 62, 60]`. -/
def mcScenario : MarkovChain := train (markovNew 1) [60, 62, 64, 62, 60]

/-- A small order-1 chain trained on `[60, 62]`. -/
def mcSmall : MarkovChain := train (markovNew 1) [60, 62]

/-- Declared probabilities that are positive but all round to zero copies. -/
def probsSmall : List (Int × List (Int × ℚ)) := [(60, [(62, 1/250)])]

/-- The single-seed width-8 initial row. -/
def caSeed8 : List Nat := [0, 0, 0, 0, 1, 0, 0, 0]

/-! ## Theorems -/

/-- C8: for `len(sequence) <= order`, `train` is a soft no-op: it reports the
warning-level condition, records no starting state, leaves the transition
table completely unchanged, and returns the unchanged model instance (never a
fatal error: the embedding of `train` is total). -/
theorem train_short_is_soft_noop (mc : MarkovChain) (seq : List Int)
    (h : seq.length ≤ mc.order) :
    train mc seq = mc ∧ trainWarns mc seq = true := by
  constructor
  · simp [train, h]
  · simpa [trainWarns] using h

/-- Witness for C8 at a concrete short sequence. -/
theorem train_short_is_soft_noop_witness :
    ([5, 7] : List Int).length ≤ (markovNew 2).order ∧
      (train (markovNew 2) [5, 7] = markovNew 2 ∧
        trainWarns (markovNew 2) [5, 7] = true) :=
  ⟨by decide, train_short_is_soft_noop (markovNew 2) [5, 7] (by decide)⟩

/-- The `evolve()` pushes a copy of the new row onto the history. -/
theorem evolveCA_history (ca : CellularAutomata) :
    (evolveCA ca).1.history = ca.history ++ [(evolveCA ca).2] := rfl

/-- The `evolveMultiple` appends exactly the returned rows. -/
theorem evolveMultiple_history (ca : CellularAutomata) (steps : Nat) :
    (evolveMultiple ca steps).1.history = ca.history ++ (evolveMultiple ca steps).2 ∧
      (evolveMultiple ca steps).2.length = steps := by
  induction steps generalizing ca with
  | zero => simp [evolveMultiple]
  | succ n ih =>
    obtain ⟨h1, h2⟩ := ih (evolveCA ca).1
    refine ⟨?_, by simpa [evolveMultiple] using h2⟩
    show (evolveMultiple (evolveCA ca).1 n).1.history = _
    rw [h1, evolveCA_history, List.append_assoc]
    rfl

/-- The `while` loop of `generatePitches` only ever appends to the history. -/
theorem evolveWhile_append (target : Nat) :
    ∀ (fuel : Nat) (ca : CellularAutomata),
      ∃ rows, (evolveWhile target fuel ca).history = ca.history ++ rows := by
  intro fuel
  induction fuel with
  | zero => exact fun ca => ⟨[], by simp [evolveWhile]⟩
  | succ n ih =>
    intro ca
    by_cases h : ca.history.length < target
    · obtain ⟨rows, hr⟩ := ih (evolveCA ca).1
      refine ⟨(evolveCA ca).2 :: rows, ?_⟩
      rw [evolveWhile, if_pos h, hr, evolveCA_history, List.append_assoc]
      rfl
    · exact ⟨[], by rw [evolveWhile, if_neg h]; simp⟩

/-- The `while` loop of `generatePitches` stops exactly when the history
reaches the requested length (given enough fuel, which each one-row-per-step
iteration guarantees for `fuel = target`). -/
theorem evolveWhile_length (target : Nat) :
    ∀ (fuel : Nat) (ca : CellularAutomata), target ≤ fuel + ca.history.length →
      (evolveWhile target fuel ca).history.length = max ca.history.length target := by
  intro fuel
  induction fuel with
  | zero =>
    intro ca h
    rw [evolveWhile]
    omega
  | succ n ih =>
    intro ca h
    by_cases hlt : ca.history.length < target
    · have hh : (evolveCA ca).1.history.length = ca.history.length + 1 := by
        rw [evolveCA_history]; simp
      rw [evolveWhile, if_pos hlt, ih (evolveCA ca).1 (by omega)]
      omega
    · rw [evolveWhile, if_neg hlt]
      omega

/-- C9: the automaton's history is append-only: `evolve` appends exactly one
row equal to its returned row, `evolveMultiple(steps)` appends exactly the
`steps` returned rows in order, and `generatePitches(length, ...)` appends
rows only until the history reaches the requested length (final history length
`max(previous, length)`); rows already in the history are never modified or
removed, since every operation only ever appends at the end. -/
theorem ca_history_append_only (ca : CellularAutomata) (steps len : Nat)
    (minPitch maxPitch : Int) :
    (evolveCA ca).1.history = ca.history ++ [(evolveCA ca).2] ∧
      ((evolveMultiple ca steps).1.history = ca.history ++ (evolveMultiple ca steps).2 ∧
        (evolveMultiple ca steps).2.length = steps) ∧
      (∃ rows, (caGeneratePitches ca len minPitch maxPitch).1.history
        = ca.history ++ rows) ∧
      (caGeneratePitches ca len minPitch maxPitch).1.history.length
        = max ca.history.length len := by
  refine ⟨evolveCA_history ca, evolveMultiple_history ca steps, ?_, ?_⟩
  · exact evolveWhile_append len len ca
  · exact evolveWhile_length len len ca (by omega)

/-- The `rewriteStep` (the loop body of `LSystem.generate`) agrees with the
amended one-step map in which an empty replacement acts as a missing rule. -/
theorem rewriteStep_eq_amended (rules : LRules) :
    ∀ s : List Char, rewriteStep rules s = amendedRewriteStep rules s := by
  intro s
  induction s with
  | nil => rfl
  | cons c cs ih =>
    rw [rewriteStep, ih]
    show _ ++ amendedRewriteStep rules cs = amendedRewriteStep rules (c :: cs)
    unfold amendedRewriteStep
    rw [List.flatMap_cons]
    cases h : rules c with
    | none => rfl
    | some r => cases r <;> simp

/-- C4 counterexample: with the rule `A -> ""` (producible by
`parseRules("A->")`) the source keeps `A` — the empty replacement string is
falsy in JS — while the map described by the claim erases it, so
`generate(1)` differs from one application of the claimed map. -/
theorem lsys_generate_claim_counterexample :
    lsysGenerate emptyRuleA 1 ['A'] ≠ (specRewriteStep emptyRuleA)^[1] ['A'] := by
  decide

/-- C4 (amended): `generate(iterations)` equals iterating, `iterations` times
starting from the axiom, the map that replaces each symbol by its rule's
replacement when a rule with a *non-empty* replacement exists and keeps the
symbol unchanged otherwise (an empty replacement is falsy in the source's rule
test and acts like a missing rule); consequently, for axiom `"A"` with rules
`{A: "AB", B: "A"}`, `generate(2)` returns the derivation `"ABA"`. -/
theorem lsys_generate_iterates_amended :
    (∀ (rules : LRules) (n : Nat) (s : List Char),
        lsysGenerate rules n s = (amendedRewriteStep rules)^[n] s) ∧
      lsysGenerate fibRules 2 ['A'] = ['A', 'B', 'A'] := by
  constructor
  · intro rules n
    induction n with
    | zero => intro s; rfl
    | succ m ih =>
      intro s
      rw [lsysGenerate, ih, rewriteStep_eq_amended]
      exact (Function.iterate_succ_apply (amendedRewriteStep rules) m s).symm
  · decide

/-- Tiling an empty pattern can never reach a positive target length: the
loop body `full.push(...[])` leaves the accumulator unchanged forever. -/
theorem tileLoop_nil_none (target : Nat) :
    ∀ (fuel : Nat) (acc : List Nat), acc.length < target →
      tileLoop [] target fuel acc = none := by
  intro fuel
  induction fuel with
  | zero =>
    intro acc h
    rw [tileLoop, if_neg (by omega)]
  | succ n ih =>
    intro acc h
    rw [tileLoop, if_neg (by omega), List.append_nil]
    exact ih acc h

/-- C1 (refuted: the code can fail to return): for an out-of-range row index
`toRhythm` logs `Invalid row index` and yields the empty row, and the tiling
`while` loops of `applyToSequence` and `applyToPitches` then push an empty
array forever — no amount of fuel makes them terminate on a non-empty notes
list, so neither call returns control to the caller. -/
theorem ca_apply_out_of_range_diverges :
    (∀ fuel, caApplyToSequence (caInit 30 8 none) [60] [1] 5 fuel = none) ∧
      (∀ fuel, caApplyToPitches (caInit 30 8 none) [60] 5 4 fuel = none) := by
  have hr : caToRhythm (caInit 30 8 none) 5 = [] := by decide
  constructor
  · intro fuel
    have ht : tileLoop (caToRhythm (caInit 30 8 none) 5) ([60] : List Int).length fuel []
        = none := by
      rw [hr]; exact tileLoop_nil_none _ fuel [] (by decide)
    simp only [caApplyToSequence, ht]
  · intro fuel
    have ht : tileLoop (caToRhythm (caInit 30 8 none) 5) ([60] : List Int).length fuel []
        = none := by
      rw [hr]; exact tileLoop_nil_none _ fuel [] (by decide)
    simp only [caApplyToPitches, ht]

/-- With a non-empty starting-state pool, every iteration of the generation
loop appends exactly one value (a successor, an `undefined` read from an empty
multiset, or a fallback starting symbol) and never `break`s. -/
theorem genStep_total (mc : MarkovChain) (rng : Nat → Nat) (k : Nat)
    (seq : List JsVal) (hpool : mc.startingStates ≠ []) :
    ∃ x, genStep mc rng k seq = some (seq ++ [x]) := by
  simp only [genStep]
  cases h : findSucc mc.transitionTable (seq.drop (seq.length - mc.order)) with
  | some vs => exact ⟨_, rfl⟩
  | none =>
    have hlen : mc.startingStates.length ≠ 0 := by
      simpa using hpool
    rw [if_pos hlen]
    exact ⟨_, rfl⟩

/-- The generation loop grows the sequence to exactly `len` values (and leaves
a longer seed untouched) whenever the pool is non-empty and the fuel covers
the missing length. -/
theorem genLoop_length (mc : MarkovChain) (rng : Nat → Nat) (len : Nat)
    (hpool : mc.startingStates ≠ []) :
    ∀ (fuel k : Nat) (seq : List JsVal), len ≤ fuel + seq.length →
      (genLoop mc rng len fuel k seq).length = max len seq.length := by
  intro fuel
  induction fuel with
  | zero =>
    intro k seq h
    rw [genLoop]
    omega
  | succ n ih =>
    intro k seq h
    by_cases hlt : seq.length < len
    · obtain ⟨x, hx⟩ := genStep_total mc rng k seq hpool
      rw [genLoop, if_pos hlt, hx, ih (k + 1) (seq ++ [x]) (by simp; omega)]
      simp
      omega
    · rw [genLoop, if_neg hlt]
      omega

/-- The `tableAdd` never produces an empty table. -/
theorem tableAdd_ne_nil (tbl : List (List Int × List Int)) (k : List Int) (v : Int) :
    tableAdd tbl k v ≠ [] := by
  cases tbl with
  | nil => simp [tableAdd]
  | cons e rest =>
    obtain ⟨k2, vs⟩ := e
    rw [tableAdd]
    split <;> simp

/-- Folding `tableAdd` over a non-empty index list never produces an empty
table. -/
theorem foldl_tableAdd_ne_nil (g : Nat → List Int) (h : Nat → Int) :
    ∀ (l : List Nat) (init : List (List Int × List Int)), l ≠ [] →
      l.foldl (fun tbl i => tableAdd tbl (g i) (h i)) init ≠ [] := by
  intro l
  induction l with
  | nil => intro _ hne; cases hne rfl
  | cons a l2 ih =>
    intro init _
    rw [List.foldl_cons]
    cases l2 with
    | nil => simpa using tableAdd_ne_nil init (g a) (h a)
    | cons b l3 => exact ih _ (by simp)

/-- C2 counterexample: an order-2 chain trained on `[1, 2, 3]` (length
`order + 1`, so a starting state exists) and asked for `length = 1` from the
valid start context `[1, 2]` returns the untouched 2-symbol seed — strictly
more than `length`, falsifying "it never returns more than `length`
symbols". -/
theorem generate_overshoot_counterexample :
    (generate (train (markovNew 2) [1, 2, 3]) 1 (some [1, 2]) (fun _ => 0)).length ≠ 1 := by
  decide

/-- C2 (amended): after training a fresh chain on a sequence of length at
least `order + 1`, `generate(length, startContext?)` returns exactly
`max(length, order)` symbols for every length, optional start context and
random stream: exactly `length` symbols when `length ≥ order`, and the
untouched order-length seed (which exceeds `length`) when `length < order`;
it never undershoots, because the non-empty starting-state pool makes the
fallback branch always produce a symbol. -/
theorem generate_length_core (mc : MarkovChain) (len : Nat)
    (startState : Option (List Int)) (rng : Nat → Nat)
    (htbl : mc.transitionTable ≠ [])
    (hpool : mc.startingStates ≠ [])
    (hlens : ∀ s ∈ mc.startingStates, s.length = mc.order) :
    (generate mc len startState rng).length = max len mc.order := by
  have htbl' : ¬ mc.transitionTable.length = 0 := by simpa using htbl
  have hpoolLen : mc.startingStates.length ≠ 0 := by simpa using hpool
  have hseed : ∃ s, chooseSeed mc rng startState = some s ∧ s.length = mc.order := by
    have hpick : ∃ s, poolPick mc rng = some s ∧ s.length = mc.order := by
      rw [poolPick, if_pos hpoolLen]
      have hlt : rng 0 % mc.startingStates.length < mc.startingStates.length :=
        Nat.mod_lt _ (by omega)
      rw [List.get?_eq_getElem?, List.getElem?_eq_getElem hlt]
      exact ⟨_, rfl, hlens _ (List.getElem_mem hlt)⟩
    cases startState with
    | none => exact hpick
    | some sc =>
      rw [chooseSeed]
      by_cases hsc : sc.length = mc.order
      · rw [if_pos hsc]
        exact ⟨sc, rfl, hsc⟩
      · rw [if_neg hsc]
        exact hpick
  obtain ⟨s, hs_eq, hs_len⟩ := hseed
  rw [generate, if_neg htbl', hs_eq]
  rw [genLoop_length mc rng len hpool len 1 (s.map some) (Nat.le_add_right _ _)]
  simp [hs_len]

/-- C2 (amended): after training a fresh chain on a sequence of length at
least `order + 1`, `generate(length, startContext?)` returns exactly
`max(length, order)` symbols for every length, optional start context and
random stream: exactly `length` symbols when `length ≥ order`, and the
untouched order-length seed (which exceeds `length`) when `length < order`;
it never undershoots, because the non-empty starting-state pool makes the
fallback branch always produce a symbol. -/
theorem generate_length_amended (order : Nat) (tseq : List Int) (len : Nat)
    (startState : Option (List Int)) (rng : Nat → Nat)
    (htrain : order + 1 ≤ tseq.length) :
    (generate (train (markovNew order) tseq) len startState rng).length
      = max len order := by
  have hshort : ¬ tseq.length ≤ (markovNew order).order := by
    show ¬ tseq.length ≤ order
    omega
  have horder : (train (markovNew order) tseq).order = order := by
    rw [train, if_neg hshort]
    rfl
  have hpool : (train (markovNew order) tseq).startingStates = [tseq.take order] := by
    rw [train, if_neg hshort]
    rfl
  have hpoolne : (train (markovNew order) tseq).startingStates ≠ [] := by
    rw [hpool]; simp
  have htbl : (train (markovNew order) tseq).transitionTable ≠ [] := by
    rw [train, if_neg hshort]
    apply foldl_tableAdd_ne_nil
    rw [Ne, List.range_eq_nil]
    show ¬ tseq.length - order = 0
    omega
  have hlens : ∀ s ∈ (train (markovNew order) tseq).startingStates,
      s.length = (train (markovNew order) tseq).order := by
    intro s hs
    rw [hpool] at hs
    rw [List.mem_singleton] at hs
    subst hs
    rw [horder, List.length_take]
    omega
  rw [generate_length_core _ _ _ _ htbl hpoolne hlens, horder]

/-- Witness for C2 (amended) at order 1, training sequence `[60, 62]`. -/
theorem generate_length_amended_witness :
    1 + 1 ≤ ([60, 62] : List Int).length ∧
      (generate (train (markovNew 1) [60, 62]) 3 none (fun _ => 0)).length = max 3 1 :=
  ⟨by decide, generate_length_amended 1 [60, 62] 3 none (fun _ => 0) (by decide)⟩

/-- Window lengths of the segment loop of `applyToMusic`: with positive
segment size and enough windows to cover the sequence, the loop emits exactly
the not-yet-covered part of the sequence. -/
theorem segApply_length (transforms : Char → Option (Int → Int)) (seq : List Int)
    (seg : Nat) (hseg : 0 < seg) :
    ∀ (cs : List Char) (i : Nat), seq.length ≤ cs.length * seg + i * seg →
      (segApply transforms seq seg cs i).length = seq.length - i * seg := by
  intro cs
  induction cs with
  | nil =>
    intro i h
    rw [segApply]
    simp only [List.length_nil, Nat.zero_mul, Nat.zero_add] at h
    simp only [List.length_nil]
    omega
  | cons c cs ih =>
    intro i h
    rw [segApply]
    by_cases hstart : seq.length ≤ i * seg
    · rw [if_pos hstart]
      simp only [List.length_nil]
      omega
    · rw [if_neg hstart]
      have e1 : (i + 1) * seg = i * seg + seg := by ring
      have e2 : (c :: cs).length * seg = cs.length * seg + seg := by
        simp [List.length_cons]; ring
      have hrest : (segApply transforms seq seg cs (i + 1)).length
          = seq.length - (i + 1) * seg := by
        apply ih
        rw [e1]
        rw [e2] at h
        omega
      have hsegment : ((seq.drop (i * seg)).take
          (min ((i + 1) * seg) seq.length - i * seg)).length
          = min ((i + 1) * seg) seq.length - i * seg := by
        rw [List.length_take, List.length_drop]
        omega
      cases htr : transforms c with
      | some f =>
        simp only [htr, List.length_append, List.length_map, hsegment, hrest]
        omega
      | none =>
        simp only [htr, List.length_append, hsegment, hrest]
        omega

/-- C3: for every non-empty prior derivation string and every input sequence,
`applyToMusic` returns an output of exactly the input's length: with
`segmentSize = ceil(len(sequence) / len(derivation))` the processed windows
tile the input, each input index falls in exactly one window, and the
concatenated windows cover the input exactly once (window `i` contributes
`min((i+1)*seg, len) - i*seg` elements, summing to `len`). -/
theorem applyToMusic_length (deriv : List Char) (seq : List Int)
    (transformations : Option (Char → Option (Int → Int))) (h : deriv ≠ []) :
    (applyToMusic deriv seq transformations).length = seq.length := by
  have hd : ¬ deriv.length = 0 := by simpa using h
  rw [applyToMusic, if_neg hd]
  by_cases hL : seq.length = 0
  · cases deriv with
    | nil => cases h rfl
    | cons c cs =>
      rw [segApply, if_pos (by omega)]
      rw [List.length_nil, hL]
  · have hseg : 0 < (seq.length + deriv.length - 1) / deriv.length :=
      Nat.div_pos (by omega) (by omega)
    have hdm := Nat.div_add_mod (seq.length + deriv.length - 1) deriv.length
    have hmlt : (seq.length + deriv.length - 1) % deriv.length < deriv.length :=
      Nat.mod_lt _ (by omega)
    have hcover : seq.length ≤
        deriv.length * ((seq.length + deriv.length - 1) / deriv.length) + 0 *
          ((seq.length + deriv.length - 1) / deriv.length) := by
      omega
    have := segApply_length (transformations.getD defaultTransform) seq
      ((seq.length + deriv.length - 1) / deriv.length) hseg deriv 0 hcover
    rw [this]
    omega

/-- Witness for C3 at a concrete derivation and sequence. -/
theorem applyToMusic_length_witness :
    (['A', 'B'] : List Char) ≠ [] ∧
      (applyToMusic ['A', 'B'] [60, 61, 62, 63, 64] none).length
        = ([60, 61, 62, 63, 64] : List Int).length :=
  ⟨by decide, applyToMusic_length ['A', 'B'] [60, 61, 62, 63, 64] none (by decide)⟩

/-- The `rule & (1 << i)` is non-zero exactly when bit `i` of the rule number is
set. -/
theorem and_shift_ite (rule i : Nat) :
    (if rule &&& (1 <<< i) ≠ 0 then (1 : Nat) else 0)
      = (if rule.testBit i then 1 else 0) := by
  have h2 : (0 : Nat) < 2 ^ i := Nat.pos_pow_of_pos i (by omega)
  rw [Nat.shiftLeft_eq, one_mul, Nat.and_two_pow]
  cases h : rule.testBit i <;> simp

/-- The rule-table lookup of a binary neighborhood `(l, c, r)` is bit
`4*l + 2*c + r` of the rule number. -/
theorem getNextCellState_eq_testBit (rule l c r : Nat)
    (hl : l = 0 ∨ l = 1) (hc : c = 0 ∨ c = 1) (hr : r = 0 ∨ r = 1) :
    getNextCellState rule l c r
      = (if rule.testBit (4 * l + 2 * c + r) then 1 else 0) := by
  rcases hl with rfl | rfl <;> rcases hc with rfl | rfl <;> rcases hr with rfl | rfl
  · exact and_shift_ite rule 0
  · exact and_shift_ite rule 1
  · exact and_shift_ite rule 2
  · exact and_shift_ite rule 3
  · exact and_shift_ite rule 4
  · exact and_shift_ite rule 5
  · exact and_shift_ite rule 6
  · exact and_shift_ite rule 7

/-- C5: for every rule number and every binary row, the 8-entry rule table
maps the 3-bit neighborhood pattern (left, center, right) to bit
`4*left + 2*center + right` of the rule number, and `evolve` computes every
cell `i` of the next row by this lookup on the previous row's cells at
`i-1, i, i+1` with periodic wraparound; `evolveRow` is a function of the
previous row alone, so the update is synchronous and never reads
partially-updated cells. -/
theorem ca_rule_table_and_evolve (rule : Nat) (s : List Nat)
    (hbits : ∀ x ∈ s, x = 0 ∨ x = 1) :
    (evolveRow rule s.length s).length = s.length ∧
      ∀ i, i < s.length →
        (evolveRow rule s.length s).getD i 0 =
          (if rule.testBit
              (4 * s.getD ((i + s.length - 1) % s.length) 0 +
                2 * s.getD i 0 + s.getD ((i + 1) % s.length) 0)
            then 1 else 0) := by
  constructor
  · rw [evolveRow]
    simp
  · intro i hi
    have hget : ∀ j : Nat, j < s.length → s.getD j 0 = 0 ∨ s.getD j 0 = 1 := by
      intro j hj
      rw [List.getD_eq_getElem s 0 hj]
      exact hbits _ (List.getElem_mem hj)
    have hrow : (evolveRow rule s.length s).getD i 0
        = getNextCellState rule (s.getD ((i + s.length - 1) % s.length) 0)
            (s.getD i 0) (s.getD ((i + 1) % s.length) 0) := by
      rw [evolveRow, List.getD_eq_getElem _ 0 (by simpa using hi)]
      simp [List.getElem_map, List.getElem_range]
    rw [hrow]
    exact getNextCellState_eq_testBit rule _ _ _
      (hget _ (Nat.mod_lt _ (by omega))) (hget _ hi) (hget _ (Nat.mod_lt _ (by omega)))

/-- Witness for C5 at rule 30 on the single-seed width-8 row. -/
theorem ca_rule_table_and_evolve_witness :
    (∀ x ∈ caSeed8, x = 0 ∨ x = 1) ∧
      ((evolveRow 30 caSeed8.length caSeed8).length = caSeed8.length ∧
        ∀ i, i < caSeed8.length →
          (evolveRow 30 caSeed8.length caSeed8).getD i 0 =
            (if (30 : Nat).testBit
                (4 * caSeed8.getD ((i + caSeed8.length - 1) % caSeed8.length) 0 +
                  2 * caSeed8.getD i 0 + caSeed8.getD ((i + 1) % caSeed8.length) 0)
              then 1 else 0)) :=
  ⟨by decide, ca_rule_table_and_evolve 30 caSeed8 (by decide)⟩

/-- The sorted state list is duplicate-free. -/
theorem matrixStates_nodup (tbl : List (List Int × List Int)) :
    (matrixStates tbl).Nodup :=
  (List.perm_insertionSort _ (collectStates tbl)).symm.nodup (List.nodup_dedup _)

/-- Every successor value recorded in the table appears among the matrix
states. -/
theorem succ_mem_matrixStates (tbl : List (List Int × List Int)) :
    ∀ e ∈ tbl, ∀ v ∈ e.2, v ∈ matrixStates tbl := by
  intro e he v hv
  rw [matrixStates, (List.perm_insertionSort _ _).mem_iff, collectStates, List.mem_dedup]
  exact List.mem_flatMap.mpr ⟨e, he, by simp [hv]⟩

/-- Every parsed from-state appears among the matrix states. -/
theorem head_mem_matrixStates (tbl : List (List Int × List Int)) :
    ∀ e ∈ tbl, e.1.headI ∈ matrixStates tbl := by
  intro e he
  rw [matrixStates, (List.perm_insertionSort _ _).mem_iff, collectStates, List.mem_dedup]
  exact List.mem_flatMap.mpr ⟨e, he, by simp⟩

/-- Pointwise sums of mapped lists split. -/
theorem sum_map_add_distrib (l : List Int) (f g : Int → Nat) :
    (l.map (fun x => f x + g x)).sum = (l.map f).sum + (l.map g).sum := by
  induction l with
  | nil => rfl
  | cons a l ih =>
    rw [List.map_cons, List.sum_cons, ih, List.map_cons, List.sum_cons,
      List.map_cons, List.sum_cons]
    omega

/-- The indicator of a member of a duplicate-free list sums to 1. -/
theorem sum_indicator_nodup (a : Int) :
    ∀ states : List Int, states.Nodup → a ∈ states →
      (states.map (fun t => if a = t then (1 : Nat) else 0)).sum = 1 := by
  intro states
  induction states with
  | nil => intro _ h; cases h
  | cons s ss ih =>
    intro hnd hmem
    rw [List.map_cons, List.sum_cons]
    rcases List.mem_cons.mp hmem with rfl | hmem2
    · rw [if_pos rfl]
      have hz : (ss.map (fun t => if a = t then (1 : Nat) else 0)).sum = 0 := by
        apply List.sum_eq_zero
        intro x hx
        obtain ⟨t, ht, rfl⟩ := List.mem_map.mp hx
        have : a ≠ t := fun he => (List.nodup_cons.mp hnd).1 (he ▸ ht)
        simp [this]
      omega
    · have hne : a ≠ s := by
        intro he
        exact (List.nodup_cons.mp hnd).1 (he ▸ hmem2)
      rw [if_neg hne, ih (List.nodup_cons.mp hnd).2 hmem2]

/-- A list whose members all lie in a duplicate-free `states` has as many
elements as the total of its per-state counts. -/
theorem sum_counts_eq_length (states : List Int) (hnd : states.Nodup) :
    ∀ l : List Int, (∀ x ∈ l, x ∈ states) →
      (states.map (fun t => l.count t)).sum = l.length := by
  intro l
  induction l with
  | nil => intro _; simp
  | cons a l ih =>
    intro hsub
    have h1 : states.map (fun t => (a :: l).count t)
        = states.map (fun t => l.count t + if a = t then 1 else 0) :=
      List.map_congr_left (fun t _ => by rw [List.count_cons]; simp)
    rw [h1, sum_map_add_distrib, ih (fun x hx => hsub x (by simp [hx])),
      sum_indicator_nodup a states hnd (hsub a (by simp))]
    simp

/-- Exchanging the two sums of the matrix row total: summing the counts over
all states equals summing the successor-list lengths over the table entries
whose from-state is `f`. -/
theorem sum_counts_swap (f : Int) (states : List Int) (hnd : states.Nodup) :
    ∀ tbl : List (List Int × List Int),
      (∀ e ∈ tbl, ∀ v ∈ e.2, v ∈ states) →
      (states.map (fun t => countEntry tbl f t)).sum
        = (tbl.map (fun e => if e.1.headI = f then e.2.length else 0)).sum := by
  intro tbl
  induction tbl with
  | nil => intro _; simp [countEntry]
  | cons e tbl ih =>
    intro hsub
    have h1 : states.map (fun t => countEntry (e :: tbl) f t)
        = states.map (fun t =>
            (if e.1.headI = f then e.2.count t else 0) + countEntry tbl f t) :=
      List.map_congr_left (fun t _ => by
        rw [countEntry, List.map_cons, List.sum_cons]; rfl)
    rw [h1, sum_map_add_distrib, ih (fun e2 he2 v hv => hsub e2 (by simp [he2]) v hv),
      List.map_cons, List.sum_cons]
    congr 1
    by_cases hf : e.1.headI = f
    · simp only [if_pos hf]
      exact sum_counts_eq_length states hnd e.2 (fun v hv => hsub e (by simp) v hv)
    · simp only [if_neg hf]
      simp

/-- The row total of `f` counts every observed transition out of `f`. -/
theorem rowTotal_eq_sum (tbl : List (List Int × List Int)) (f : Int) :
    rowTotal tbl f
      = (tbl.map (fun e => if e.1.headI = f then e.2.length else 0)).sum :=
  sum_counts_swap f (matrixStates tbl) (matrixStates_nodup tbl) tbl
    (succ_mem_matrixStates tbl)

/-- The `f` has an observed outgoing transition iff its row total is positive. -/
theorem hasOutgoing_iff_rowTotal_pos (tbl : List (List Int × List Int)) (f : Int) :
    hasOutgoing tbl f ↔ 0 < rowTotal tbl f := by
  rw [rowTotal_eq_sum]
  constructor
  · rintro ⟨e, he, hf, hne⟩
    by_contra hzero
    have h0 : (tbl.map (fun e => if e.1.headI = f then e.2.length else 0)).sum = 0 := by
      omega
    have := List.sum_eq_zero_iff.mp h0 _
      (List.mem_map_of_mem (fun e => if e.1.headI = f then e.2.length else 0) he)
    rw [if_pos hf] at this
    exact hne (List.length_eq_zero.mp this)
  · intro hpos
    by_contra hno
    have hz : ∀ x ∈ tbl.map (fun e => if e.1.headI = f then e.2.length else 0), x = 0 := by
      intro x hx
      obtain ⟨e, he, rfl⟩ := List.mem_map.mp hx
      by_cases hf : e.1.headI = f
      · rw [if_pos hf]
        by_cases hne : e.2 = []
        · simp [hne]
        · exact absurd ⟨e, he, hf, hne⟩ hno
      · rw [if_neg hf]
    have := List.sum_eq_zero hz
    omega

/-- Dividing each mapped value by a constant divides the sum. -/
theorem sum_map_div_rat (l : List Int) (g : Int → ℚ) (c : ℚ) :
    (l.map (fun t => g t / c)).sum = (l.map g).sum / c := by
  induction l with
  | nil => simp
  | cons a l ih =>
    rw [List.map_cons, List.sum_cons, ih, List.map_cons, List.sum_cons, add_div]

/-- Casting the row total into `ℚ` through the per-state counts. -/
theorem sum_map_cast_counts (tbl : List (List Int × List Int)) (f : Int) :
    ((matrixStates tbl).map (fun t => (countEntry tbl f t : ℚ))).sum
      = ((rowTotal tbl f : Nat) : ℚ) := by
  rw [rowTotal, Nat.cast_list_sum, List.map_map]
  rfl

/-- C6: on an order-1 model, every probability-matrix row whose from-state has
at least one observed outgoing transition sums to exactly 1 (the float
division of the source is modelled exactly over `ℚ`, so "within floating
tolerance" holds), and every row whose from-state has no observed transition
is all-zero and sums to 0; rows with zero total are never divided, so there is
no division by zero. -/
theorem prob_matrix_rows (mc : MarkovChain) (states : List Int)
    (P : Int → Int → ℚ) (f : Int)
    (h1 : getProbabilityMatrix mc = some (states, P)) (h2 : f ∈ states) :
    (hasOutgoing mc.transitionTable f →
        (states.map (fun t => P f t)).sum = 1) ∧
      (¬ hasOutgoing mc.transitionTable f →
        (∀ t ∈ states, P f t = 0) ∧ (states.map (fun t => P f t)).sum = 0) := by
  have horder : ¬ mc.order ≠ 1 := by
    intro ho
    rw [getProbabilityMatrix, if_pos ho] at h1
    cases h1
  rw [getProbabilityMatrix, if_neg horder] at h1
  have h1' := Option.some.inj h1
  have hs : states = matrixStates mc.transitionTable := (congrArg Prod.fst h1').symm
  have hp : P = probEntry mc.transitionTable := (congrArg Prod.snd h1').symm
  subst hs
  subst hp
  constructor
  · intro hout
    have hpos := (hasOutgoing_iff_rowTotal_pos mc.transitionTable f).mp hout
    have hPt : (matrixStates mc.transitionTable).map
          (fun t => probEntry mc.transitionTable f t)
        = (matrixStates mc.transitionTable).map
          (fun t => (countEntry mc.transitionTable f t : ℚ)
            / (rowTotal mc.transitionTable f : ℚ)) :=
      List.map_congr_left (fun t _ => by rw [probEntry, if_pos hpos])
    rw [hPt, sum_map_div_rat, sum_map_cast_counts]
    apply div_self
    have hne : rowTotal mc.transitionTable f ≠ 0 := by omega
    exact_mod_cast hne
  · intro hout
    have hzero : rowTotal mc.transitionTable f = 0 := by
      have := (hasOutgoing_iff_rowTotal_pos mc.transitionTable f).not.mp hout
      omega
    have hcnt : ∀ t ∈ matrixStates mc.transitionTable,
        countEntry mc.transitionTable f t = 0 := by
      intro t ht
      exact List.sum_eq_zero_iff.mp hzero _
        (List.mem_map_of_mem (fun t => countEntry mc.transitionTable f t) ht)
    have hall : ∀ t ∈ matrixStates mc.transitionTable,
        probEntry mc.transitionTable f t = 0 := by
      intro t ht
      rw [probEntry, if_neg (by omega), hcnt t ht]
      simp
    refine ⟨hall, List.sum_eq_zero ?_⟩
    intro x hx
    obtain ⟨t, ht, rfl⟩ := List.mem_map.mp hx
    exact hall t ht

/-- Witness for C6 on the order-1 end-to-end scenario chain, from-state 60. -/
theorem prob_matrix_rows_witness :
    getProbabilityMatrix mcScenario
        = some (matrixStates mcScenario.transitionTable,
            probEntry mcScenario.transitionTable) ∧
      (60 : Int) ∈ matrixStates mcScenario.transitionTable ∧
      hasOutgoing mcScenario.transitionTable 60 ∧
      ((matrixStates mcScenario.transitionTable).map
        (fun t => probEntry mcScenario.transitionTable 60 t)).sum = 1 :=
  ⟨rfl, by decide, by decide,
    (prob_matrix_rows mcScenario _ _ 60 rfl (by decide)).1 (by decide)⟩

/-- A fresh key appended at the end is found by lookup. -/
theorem lookupTable_append_self (key e : List Int) :
    ∀ tbl, lookupTable tbl key = none → lookupTable (tbl ++ [(key, e)]) key = some e := by
  intro tbl
  induction tbl with
  | nil => intro _; simp [lookupTable]
  | cons ent rest ih =>
    obtain ⟨k2, vs⟩ := ent
    intro h
    rw [lookupTable] at h
    rw [List.cons_append, lookupTable]
    by_cases hk : k2 = key
    · rw [if_pos hk] at h; cases h
    · rw [if_neg hk] at h ⊢
      exact ih h

/-- Appending an entry with a different key does not change lookup. -/
theorem lookupTable_append_ne (key k e : List Int) (hne : k ≠ key) :
    ∀ tbl, lookupTable (tbl ++ [(key, e)]) k = lookupTable tbl k := by
  intro tbl
  induction tbl with
  | nil =>
    have hkk : ¬ key = k := fun h2 => hne h2.symm
    simp only [List.nil_append, lookupTable, if_neg hkk]
  | cons ent rest ih =>
    obtain ⟨k2, vs⟩ := ent
    by_cases hk : k2 = k
    · rw [List.cons_append, lookupTable, if_pos hk, lookupTable, if_pos hk]
    · rw [List.cons_append, lookupTable, if_neg hk, lookupTable, if_neg hk]
      exact ih

/-- After `tableEnsure` the key is present, with its previous multiset or
an empty one. -/
theorem tableEnsure_lookup_self (tbl : List (List Int × List Int)) (key : List Int) :
    lookupTable (tableEnsure tbl key) key = some ((lookupTable tbl key).getD []) := by
  unfold tableEnsure
  cases h : lookupTable tbl key with
  | some vs => simp [h]
  | none => simp [lookupTable_append_self key [] tbl h]

/-- The `tableEnsure` does not change other keys. -/
theorem tableEnsure_lookup_ne (tbl : List (List Int × List Int)) (key k : List Int)
    (hne : k ≠ key) :
    lookupTable (tableEnsure tbl key) k = lookupTable tbl k := by
  unfold tableEnsure
  cases h : lookupTable tbl key with
  | some vs => rfl
  | none => exact lookupTable_append_ne key k [] hne tbl

/-- The `tablePush` appends one value to the pushed key's multiset. -/
theorem tablePush_lookup_self (key : List Int) (v : Int) :
    ∀ tbl, lookupTable (tablePush tbl key v) key
      = (lookupTable tbl key).map (fun vs => vs ++ [v]) := by
  intro tbl
  induction tbl with
  | nil => rfl
  | cons ent rest ih =>
    obtain ⟨k2, vs⟩ := ent
    by_cases hk : k2 = key
    · rw [tablePush, if_pos hk, lookupTable, if_pos hk, lookupTable, if_pos hk]
      rfl
    · rw [tablePush, if_neg hk, lookupTable, if_neg hk, lookupTable, if_neg hk]
      exact ih

/-- The `tablePush` does not change other keys. -/
theorem tablePush_lookup_ne (key k : List Int) (v : Int) (hne : k ≠ key) :
    ∀ tbl, lookupTable (tablePush tbl key v) k = lookupTable tbl k := by
  intro tbl
  induction tbl with
  | nil => rfl
  | cons ent rest ih =>
    obtain ⟨k2, vs⟩ := ent
    by_cases hk : k2 = key
    · have hkk : ¬ k2 = k := by
        rw [hk]
        exact fun h2 => hne h2.symm
      rw [tablePush, if_pos hk, lookupTable, if_neg hkk, lookupTable, if_neg hkk]
    · rw [tablePush, if_neg hk]
      by_cases hq : k2 = k
      · rw [lookupTable, if_pos hq, lookupTable, if_pos hq]
      · rw [lookupTable, if_neg hq, lookupTable, if_neg hq]
        exact ih

/-- The `pushCopies` appends `n` copies to the pushed key's multiset. -/
theorem pushCopies_lookup_self (key : List Int) (v : Int) :
    ∀ (n : Nat) (tbl), lookupTable (pushCopies key v n tbl) key
      = (lookupTable tbl key).map (fun vs => vs ++ List.replicate n v) := by
  intro n
  induction n with
  | zero =>
    intro tbl
    cases h : lookupTable tbl key <;> simp [pushCopies, h]
  | succ m ih =>
    intro tbl
    rw [pushCopies, ih, tablePush_lookup_self]
    cases h : lookupTable tbl key with
    | none => rfl
    | some vs =>
      simp [List.replicate_succ]

/-- The `pushCopies` does not change other keys. -/
theorem pushCopies_lookup_ne (key k : List Int) (v : Int) (hne : k ≠ key) :
    ∀ (n : Nat) (tbl), lookupTable (pushCopies key v n tbl) k = lookupTable tbl k := by
  intro n
  induction n with
  | zero => intro tbl; rfl
  | succ m ih =>
    intro tbl
    rw [pushCopies, ih, tablePush_lookup_ne key k v hne]

/-- A non-positive head contributes nothing to `posFlat`. -/
theorem posFlat_cons_nonpos (t : Int) (p : ℚ) (rest : List (Int × ℚ)) (hp : p ≤ 0) :
    posFlat ((t, p) :: rest) = posFlat rest := by
  simp only [posFlat, List.flatMap_cons, if_pos hp, List.nil_append]

/-- A positive head contributes its rounded number of copies to `posFlat`. -/
theorem posFlat_cons_pos (t : Int) (p : ℚ) (rest : List (Int × ℚ)) (hp : ¬ p ≤ 0) :
    posFlat ((t, p) :: rest) = List.replicate (roundCount p) t ++ posFlat rest := by
  simp only [posFlat, List.flatMap_cons, if_neg hp]

/-- Processing one from-state's declarations appends `posFlat` to a multiset
that is already present. -/
theorem updateEntryList_lookup_present (key : List Int) :
    ∀ (ts : List (Int × ℚ)) (tbl) (vs : List Int), lookupTable tbl key = some vs →
      lookupTable (updateEntryList key ts tbl) key = some (vs ++ posFlat ts) := by
  intro ts
  induction ts with
  | nil =>
    intro tbl vs h
    simpa [updateEntryList, posFlat] using h
  | cons tp rest ih =>
    obtain ⟨t, p⟩ := tp
    intro tbl vs h
    rw [updateEntryList]
    by_cases hp : p ≤ 0
    · rw [if_pos hp, ih tbl vs h, posFlat_cons_nonpos t p rest hp]
    · rw [if_neg hp]
      have h1 : lookupTable (tableEnsure tbl key) key = some vs := by
        rw [tableEnsure_lookup_self, h]
        rfl
      have h2 : lookupTable (pushCopies key t (roundCount p) (tableEnsure tbl key)) key
          = some (vs ++ List.replicate (roundCount p) t) := by
        rw [pushCopies_lookup_self, h1]
        rfl
      rw [ih _ _ h2, posFlat_cons_pos t p rest hp, List.append_assoc]

/-- Processing one from-state's declarations on an absent key creates the key
exactly when some declared probability is positive, with multiset `posFlat`. -/
theorem updateEntryList_lookup_absent (key : List Int) :
    ∀ (ts : List (Int × ℚ)) (tbl), lookupTable tbl key = none →
      lookupTable (updateEntryList key ts tbl) key
        = if ts.any (fun tp => decide (0 < tp.2)) then some (posFlat ts) else none := by
  intro ts
  induction ts with
  | nil =>
    intro tbl h
    simpa [updateEntryList] using h
  | cons tp rest ih =>
    obtain ⟨t, p⟩ := tp
    intro tbl h
    rw [updateEntryList]
    by_cases hp : p ≤ 0
    · have hd : decide (0 < p) = false := decide_eq_false (not_lt.mpr hp)
      rw [if_pos hp, ih tbl h, posFlat_cons_nonpos t p rest hp, List.any_cons, hd,
        Bool.false_or]
    · have hd : decide (0 < p) = true := decide_eq_true (not_le.mp hp)
      have h1 : lookupTable (tableEnsure tbl key) key = some [] := by
        rw [tableEnsure_lookup_self, h]
        rfl
      have h2 : lookupTable (pushCopies key t (roundCount p) (tableEnsure tbl key)) key
          = some (List.replicate (roundCount p) t) := by
        rw [pushCopies_lookup_self, h1]
        rfl
      rw [if_neg hp, updateEntryList_lookup_present key rest _ _ h2,
        posFlat_cons_pos t p rest hp, List.any_cons, hd, Bool.true_or, if_pos rfl]

/-- Processing one from-state's declarations does not change other keys. -/
theorem updateEntryList_lookup_ne (key k : List Int) (hne : k ≠ key) :
    ∀ (ts : List (Int × ℚ)) (tbl),
      lookupTable (updateEntryList key ts tbl) k = lookupTable tbl k := by
  intro ts
  induction ts with
  | nil => intro tbl; rfl
  | cons tp rest ih =>
    obtain ⟨t, p⟩ := tp
    intro tbl
    rw [updateEntryList]
    by_cases hp : p ≤ 0
    · rw [if_pos hp, ih]
    · rw [if_neg hp, ih, pushCopies_lookup_ne key k t hne,
        tableEnsure_lookup_ne tbl key k hne]

/-- Rebuilding from declarations whose from-states all differ from `f` leaves
the key `[f]` untouched. -/
theorem rebuildTable_lookup_notmem (f : Int) :
    ∀ (probs : List (Int × List (Int × ℚ))) (tbl),
      (∀ g ∈ probs.map Prod.fst, g ≠ f) →
      lookupTable (rebuildTable probs tbl) [f] = lookupTable tbl [f] := by
  intro probs
  induction probs with
  | nil => intro tbl _; rfl
  | cons e rest ih =>
    obtain ⟨g, ts2⟩ := e
    intro tbl hno
    rw [rebuildTable, ih _ fun g2 hg2 => hno g2 (by simp [hg2])]
    apply updateEntryList_lookup_ne
    intro hk
    injection hk with h1 _
    exact hno g (by simp) h1.symm

/-- The rebuilt table's multiset for a declared from-state `f` is `posFlat` of
its declarations, present exactly when some declared probability is
positive. -/
theorem rebuildTable_lookup (f : Int) (ts : List (Int × ℚ)) :
    ∀ (probs : List (Int × List (Int × ℚ))) (tbl),
      (probs.map Prod.fst).Nodup → (f, ts) ∈ probs → lookupTable tbl [f] = none →
      lookupTable (rebuildTable probs tbl) [f]
        = if ts.any (fun tp => decide (0 < tp.2)) then some (posFlat ts) else none := by
  intro probs
  induction probs with
  | nil => intro tbl _ hmem; cases hmem
  | cons e rest ih =>
    obtain ⟨g, ts2⟩ := e
    intro tbl hnd hmem hnone
    have hnd' : (g :: rest.map Prod.fst).Nodup := by simpa using hnd
    rcases List.mem_cons.mp hmem with heq | hmem2
    · injection heq with h1 h2
      subst h1
      subst h2
      have hno : ∀ g2 ∈ rest.map Prod.fst, g2 ≠ f := by
        intro g2 hg2 he
        subst he
        exact (List.nodup_cons.mp hnd').1 hg2
      rw [rebuildTable, rebuildTable_lookup_notmem f rest _ hno]
      exact updateEntryList_lookup_absent [f] ts tbl hnone
    · have hfmem : f ∈ rest.map Prod.fst := by
        have := List.mem_map_of_mem Prod.fst hmem2
        simpa using this
      have hg_ne : g ≠ f := by
        intro he
        subst he
        exact (List.nodup_cons.mp hnd').1 hfmem
      rw [rebuildTable]
      rw [ih _ (List.nodup_cons.mp hnd').2 hmem2]
      rw [updateEntryList_lookup_ne [g] [f] ?hkne ts2 tbl]
      · exact hnone
      case hkne =>
        intro hk
        injection hk with h1 _
        exact hg_ne h1.symm

/-- A to-state that is never declared is absent from `posFlat`. -/
theorem posFlat_count_notmem (t : Int) :
    ∀ ts : List (Int × ℚ), t ∉ ts.map Prod.fst → (posFlat ts).count t = 0 := by
  intro ts
  induction ts with
  | nil => intro _; rfl
  | cons tp rest ih =>
    obtain ⟨t2, p⟩ := tp
    intro hno
    have hne : t ≠ t2 := by
      intro he
      subst he
      exact hno (by simp)
    have hrest : t ∉ rest.map Prod.fst := fun hm => hno (by simp [hm])
    by_cases hp : p ≤ 0
    · rw [posFlat_cons_nonpos t2 p rest hp]
      exact ih hrest
    · rw [posFlat_cons_pos t2 p rest hp, List.count_append, ih hrest,
        List.count_replicate]
      simp [hne, Ne.symm hne]

/-- The number of copies of a declared to-state in the rebuilt multiset is
exactly `round(p * 100)` for its positive probability, and 0 for a
non-positive one. -/
theorem posFlat_count (t : Int) (p : ℚ) :
    ∀ ts : List (Int × ℚ), (ts.map Prod.fst).Nodup → (t, p) ∈ ts →
      (posFlat ts).count t = if 0 < p then roundCount p else 0 := by
  intro ts
  induction ts with
  | nil => intro _ h; cases h
  | cons tp rest ih =>
    obtain ⟨t2, p2⟩ := tp
    intro hnd hmem
    have hnd' : (t2 :: rest.map Prod.fst).Nodup := by simpa using hnd
    rcases List.mem_cons.mp hmem with heq | hmem2
    · injection heq with h1 h2
      subst h1
      subst h2
      have hnot : t ∉ rest.map Prod.fst := (List.nodup_cons.mp hnd').1
      by_cases hp : p ≤ 0
      · rw [posFlat_cons_nonpos t p rest hp, posFlat_count_notmem t rest hnot,
          if_neg (not_lt.mpr hp)]
      · rw [posFlat_cons_pos t p rest hp, List.count_append,
          posFlat_count_notmem t rest hnot, if_pos (not_le.mp hp),
          List.count_replicate]
        simp
    · have hne : t ≠ t2 := by
        have ht2 : t2 ∉ rest.map Prod.fst := (List.nodup_cons.mp hnd').1
        intro he
        subst he
        exact ht2 (by simpa using List.mem_map_of_mem Prod.fst hmem2)
      have ihr := ih (List.nodup_cons.mp hnd').2 hmem2
      by_cases hp2 : p2 ≤ 0
      · rw [posFlat_cons_nonpos t2 p2 rest hp2, ihr]
      · rw [posFlat_cons_pos t2 p2 rest hp2, List.count_append, ihr,
          List.count_replicate]
        simp [hne, Ne.symm hne]

/-- C7: on an order-1 model, `updateProbabilities` discards the previous
transition table entirely (the result is independent of it) and rebuilds it so
that each declared from-state's successor multiset contains exactly
`round(p * 100)` copies of each to-state declared with probability `p > 0`,
with zero-or-negative declarations omitted entirely; on a model of any other
order it is a no-op.  (Distinct JS object keys parse to distinct integers,
hence the `Nodup` hypotheses.) -/
theorem updateProbabilities_spec :
    (∀ (mc : MarkovChain) (probs : List (Int × List (Int × ℚ))),
        mc.order ≠ 1 → updateProbabilities mc probs = mc) ∧
      (∀ (mc : MarkovChain) (probs : List (Int × List (Int × ℚ)))
          (tbl' : List (List Int × List Int)),
        mc.order = 1 →
          (updateProbabilities { mc with transitionTable := tbl' } probs).transitionTable
            = (updateProbabilities mc probs).transitionTable) ∧
      (∀ (mc : MarkovChain) (probs : List (Int × List (Int × ℚ)))
          (f : Int) (ts : List (Int × ℚ)) (t : Int) (p : ℚ),
        mc.order = 1 → (probs.map Prod.fst).Nodup → (f, ts) ∈ probs →
          (ts.map Prod.fst).Nodup → (t, p) ∈ ts →
          ((lookupTable (updateProbabilities mc probs).transitionTable [f]).getD []).count t
            = if 0 < p then roundCount p else 0) := by
  refine ⟨?_, ?_, ?_⟩
  · intro mc probs h
    rw [updateProbabilities, if_pos h]
  · intro mc probs tbl' horder
    simp [updateProbabilities, horder]
  · intro mc probs f ts t p horder hndF hmemF hndT hmemT
    have hupd : (updateProbabilities mc probs).transitionTable = rebuildTable probs [] := by
      rw [updateProbabilities, if_neg (by simp [horder])]
    rw [hupd, rebuildTable_lookup f ts probs [] hndF hmemF rfl]
    cases hany : ts.any (fun tp => decide (0 < tp.2)) with
    | true =>
      rw [if_pos rfl]
      exact posFlat_count t p ts hndT hmemT
    | false =>
      have hnp : ¬ 0 < p := by
        have := List.any_eq_false.mp hany (t, p) hmemT
        simpa using this
      rw [if_neg (by simp), if_neg hnp]
      rfl

/-- Witness for C7 on a concrete order-1 model and declaration map. -/
theorem updateProbabilities_spec_witness :
    (markovNew 1).order = 1 ∧
      ((lookupTable
          (updateProbabilities (markovNew 1)
            [(60, [(62, 1/2), (64, 1/4)])]).transitionTable [60]).getD []).count 62
        = if 0 < (1/2 : ℚ) then roundCount (1/2) else 0 :=
  ⟨rfl, updateProbabilities_spec.2.2 (markovNew 1) [(60, [(62, 1/2), (64, 1/4)])]
    60 [(62, 1/2), (64, 1/4)] 62 (1/2) rfl (by decide) (by simp) (by decide) (by simp)⟩

/-- The JSON-string state of a fully-defined window equals a table key's
string exactly when the arrays are equal. -/
theorem findSucc_map_some (k : List Int) :
    ∀ tbl, findSucc tbl (k.map some) = lookupTable tbl k := by
  intro tbl
  induction tbl with
  | nil => rfl
  | cons ent rest ih =>
    obtain ⟨k2, vs⟩ := ent
    by_cases hk : k2 = k
    · subst hk
      rw [findSucc, if_pos rfl, lookupTable, if_pos rfl]
    · rw [findSucc, if_neg ?hmap, lookupTable, if_neg hk]
      · exact ih
      case hmap =>
        intro he
        exact hk (List.map_injective_iff.mpr (Option.some_injective Int) he).symm

/-- A positive probability below 0.005 rounds to zero copies. -/
theorem roundCount_eq_zero (p : ℚ) (h1 : 0 < p) (h2 : p * 200 < 1) :
    roundCount p = 0 := by
  rw [roundCount]
  have hfl : ⌊p * 100 + 1/2⌋ = 0 := by
    rw [Int.floor_eq_zero_iff, Set.mem_Ico]
    constructor
    · nlinarith
    · nlinarith
  rw [hfl]
  rfl

/-- When every declared probability is positive but rounds to zero copies,
the rebuilt multiset is empty. -/
theorem posFlat_nil_of_small (ts : List (Int × ℚ))
    (h : ∀ tp ∈ ts, 0 < tp.2 ∧ tp.2 * 200 < 1) : posFlat ts = [] := by
  induction ts with
  | nil => rfl
  | cons tp rest ih =>
    obtain ⟨t, p⟩ := tp
    obtain ⟨hp, hs⟩ := h (t, p) (by simp)
    rw [posFlat_cons_pos t p rest (not_le.mpr hp), roundCount_eq_zero p hp hs]
    simpa using ih fun tp2 h2 => h tp2 (by simp [h2])

/-- C10: if `updateProbabilities` is called on an order-1 model with a
from-state whose declared successor probabilities are all strictly positive
but below 0.005 (so each rounds to zero copies), the rebuilt table maps that
context key to an *empty* successor multiset; any later generation step whose
context window matches that key then takes the table-membership branch, reads
index 0 of the empty array (JS `undefined`), and appends it to the output —
the starting-state fallback recovery is never invoked, even though starting
states exist. -/
theorem update_then_generate_undefined (mc : MarkovChain)
    (probs : List (Int × List (Int × ℚ))) (f : Int) (ts : List (Int × ℚ))
    (horder : mc.order = 1) (hnd : (probs.map Prod.fst).Nodup)
    (hmem : (f, ts) ∈ probs) (hne : ts ≠ [])
    (hsmall : ∀ tp ∈ ts, 0 < tp.2 ∧ tp.2 * 200 < 1) :
    lookupTable (updateProbabilities mc probs).transitionTable [f] = some [] ∧
      ∀ (rng : Nat → Nat) (k : Nat) (seq : List JsVal),
        mc.startingStates ≠ [] →
        seq.drop (seq.length - (updateProbabilities mc probs).order) = [some f] →
        genStep (updateProbabilities mc probs) rng k seq = some (seq ++ [none]) := by
  have hupd : (updateProbabilities mc probs).transitionTable = rebuildTable probs [] := by
    rw [updateProbabilities, if_neg (by simp [horder])]
  have hany : ts.any (fun tp => decide (0 < tp.2)) = true := by
    cases ts with
    | nil => cases hne rfl
    | cons tp rest =>
      have hp := (hsmall tp (by simp)).1
      simp [List.any_cons, hp]
  have h1 : lookupTable (updateProbabilities mc probs).transitionTable [f] = some [] := by
    rw [hupd, rebuildTable_lookup f ts probs [] hnd hmem rfl, hany, if_pos rfl,
      posFlat_nil_of_small ts hsmall]
  refine ⟨h1, ?_⟩
  intro rng k seq hpool hctx
  simp only [genStep]
  rw [hctx]
  have hfind : findSucc (updateProbabilities mc probs).transitionTable [some f]
      = some [] := by
    rw [show ([some f] : List JsVal) = ([f] : List Int).map some from rfl,
      findSucc_map_some, h1]
  rw [hfind]
  rfl

/-- Witness for C10 on the small order-1 chain and the tiny declared
probability 1/250 < 0.005. -/
theorem update_then_generate_undefined_witness :
    mcSmall.order = 1 ∧ (probsSmall.map Prod.fst).Nodup ∧
      ((60 : Int), [((62 : Int), (1/250 : ℚ))]) ∈ probsSmall ∧
      mcSmall.startingStates ≠ [] ∧
      lookupTable (updateProbabilities mcSmall probsSmall).transitionTable [60]
        = some [] ∧
      genStep (updateProbabilities mcSmall probsSmall) (fun _ => 0) 1 [some 60]
        = some ([some 60] ++ [none]) := by
  have hsmall : ∀ tp ∈ [((62 : Int), (1/250 : ℚ))], 0 < tp.2 ∧ tp.2 * 200 < 1 := by
    intro tp htp
    rw [List.mem_singleton] at htp
    subst htp
    norm_num
  have h := update_then_generate_undefined mcSmall probsSmall 60 [(62, 1/250)]
    rfl (by decide) (by simp [probsSmall]) (by simp) hsmall
  exact ⟨rfl, by decide, by simp [probsSmall], by decide, h.1,
    h.2 (fun _ => 0) 1 [some 60] (by decide) rfl⟩

end Syberia
